import Mathlib

/-!
Verification of the KSM AutoVideo Creator core logic (`src/app.py`):
duration estimation and trimming, background selection, caption
segmentation, and the timeline (render-plan) assembly.

Modelling conventions:
* Python strings are Lean `String`s; the character-level helpers below
  (`wsplit`, `stripWs`, `joinSp`, …) model `str.split()`, `str.strip()`
  and `" ".join(...)` exactly.
* Durations are rationals.  The source uses Python floats, but every
  float expression it evaluates (`int(t * 2.2)`, `math.ceil(w / 2.2)`,
  `out_dur // 2.5`, the min/max clamps) agrees with exact rational
  arithmetic on the relevant ranges, so the rational embedding is
  faithful (2.2 = 11/5, 2.5 = 5/2, 1.4 = 7/5).
* External collaborators (Pexels search, TTS, Pillow rendering, the
  encoder) are parameters/oracles; the functions below embed only the
  repository's own logic.
-/

namespace KSM

/-- Python `str.split()` (no separator argument): split on runs of
whitespace, returning the non-empty words.  `acc` holds the current
word, reversed. -/
def wsplitAux : List Char → List Char → List (List Char)
  | [], acc => if acc.isEmpty then [] else [acc.reverse]
  | c :: cs, acc =>
    if c.isWhitespace then
      if acc.isEmpty then wsplitAux cs [] else acc.reverse :: wsplitAux cs []
    else wsplitAux cs (c :: acc)

/-- Python `str.split()` on a character list. -/
def wsplit (l : List Char) : List (List Char) := wsplitAux l []

/-- Python `str.strip(chars)`: remove the characters satisfying `p`
from both ends. -/
def stripEnds (p : Char → Bool) (l : List Char) : List Char :=
  ((l.dropWhile p).reverse.dropWhile p).reverse

/-- Python `str.strip()`: remove leading and trailing whitespace. -/
def stripWs (l : List Char) : List Char := stripEnds Char.isWhitespace l

/-- Python `text.strip()` on `String`. -/
def pyStrip (s : String) : String := (stripWs s.data).asString

/-- Python `" ".join(ws)` at character level: words joined by single
spaces. -/
def joinSp : List (List Char) → List Char
  | [] => []
  | [g] => g
  | g :: g2 :: gs => g ++ ' ' :: joinSp (g2 :: gs)

/-- Does `l` start with `n`?  (helper for the Python `in` test). -/
def startsWithL : List Char → List Char → Bool
  | _, [] => true
  | [], _ :: _ => false
  | h :: t, n :: ns => h == n && startsWithL t ns

/-- Does `n` occur as a contiguous sublist of `l`? -/
def hasSub : List Char → List Char → Bool
  | [], n => n.isEmpty
  | h :: t, n => startsWithL (h :: t) n || hasSub t n

/-- Python `needle in hay` on strings. -/
def strIn (needle hay : String) : Bool := hasSub hay.data needle.data

/-- Python `a or b` on strings (empty string is falsy). -/
def pyOr (a b : String) : String := if a = "" then b else a

/-- Python `str.lower()` (character-wise lowering). -/
def lowerStr (s : String) : String := (s.data.map Char.toLower).asString

/-- Characters kept by the slug regex class `[a-z0-9]`. -/
def isSlugChar (c : Char) : Bool :=
  (97 ≤ c.toNat && c.toNat ≤ 122) || (48 ≤ c.toNat && c.toNat ≤ 57)

/-- Python `re.sub(r"[^a-z0-9]+", "-", s)`: every maximal run of
characters outside `[a-z0-9]` becomes a single hyphen.  `inRun` records
whether we are inside such a run (its hyphen already emitted). -/
def squashAux : List Char → Bool → List Char
  | [], _ => []
  | c :: cs, inRun =>
    if isSlugChar c then c :: squashAux cs false
    else if inRun then squashAux cs true
    else '-' :: squashAux cs true

/-- The regex substitution of `slugify`. -/
def squash (l : List Char) : List Char := squashAux l false

/-- Python `s.strip("-")`. -/
def stripDash (l : List Char) : List Char := stripEnds (· == '-') l

/-- Function `slugify` from `src/app.py`:
`s = re.sub(r"[^a-z0-9]+", "-", (text or "ksm-video").strip().lower())`,
then `s.strip("-") or "ksm-video"`. -/
def slugify (text : String) : String :=
  let base := if text = "" then "ksm-video" else text
  let s := squash ((stripWs base.data).map Char.toLower)
  let r := stripDash s
  if r = [] then "ksm-video" else r.asString

/-- Function `estimate_speaking_time_seconds` from `src/app.py`:
`words = max(1, len(text.strip().split())); return math.ceil(words / wps)`
with `wps = 2.2 = 11/5`. -/
def estimate_speaking_time_seconds (text : String) (wps : ℚ := 11 / 5) : ℤ :=
  ⌈((max 1 (wsplit (stripWs text.data)).length : ℕ) : ℚ) / wps⌉

/-- Function `trim_to_duration` from `src/app.py`:
`max_words = max(35, int(target_sec * 2.2))`; if the word count of the
stripped text fits, return the stripped text, else the first
`max_words` words joined by spaces with `"…"` appended.
(`int(t * 2.2)` equals `11 * t / 5` in natural division for every
`t : ℕ`.) -/
def trim_to_duration (text : String) (target_sec : ℕ) : String :=
  let max_words := max 35 (11 * target_sec / 5)
  let words := wsplit (stripWs text.data)
  if words.length ≤ max_words then (stripWs text.data).asString
  else (joinSp (words.take max_words) ++ ['…']).asString

/-- Curated background URLs, `CURATED_BG["lean"]` in `src/app.py`. -/
def curatedLeanUrls : List String :=
  ["https://player.vimeo.com/external/357479265.sd.mp4?s=9a18c1a7b09f3f5c6e237ef55ff29ce7cbe9da9a&profile_id=164",
   "https://player.vimeo.com/external/214857965.sd.mp4?s=3b7627a6d4a485a4f33a61f54e63a60b9d2e6cda&profile_id=164"]

/-- List `CURATED_BG["process"]`. -/
def curatedProcessUrls : List String :=
  ["https://player.vimeo.com/external/357478777.sd.mp4?s=4f4c3ee6c52777c3339f6f1a6fcba6d8b49e6c38&profile_id=164"]

/-- List `CURATED_BG["ai"]`. -/
def curatedAiUrls : List String :=
  ["https://player.vimeo.com/external/331695260.sd.mp4?s=6f1b8a8b3022c1b3b3c9f94d0d8de7b4d8b3b3a0&profile_id=164"]

/-- List `CURATED_BG["default"]`. -/
def curatedDefaultUrls : List String :=
  ["https://player.vimeo.com/external/357479265.sd.mp4?s=9a18c1a7b09f3f5c6e237ef55ff29ce7cbe9da9a&profile_id=164"]

/-- Keywords of the first curated group. -/
def leanKeywords : List String := ["lean", "six sigma", "kaizen", "dmaic", "process"]

/-- Keywords of the second curated group. -/
def aiKeywords : List String := ["ai", "analytics", "data", "automation", "mining"]

/-- The sequence of search queries tried by `pick_background_url`. -/
def searchQueries (title : String) (topic_hint : Option String) : List String :=
  ([topic_hint.getD "", title, "abstract technology background",
    "minimal gradient", "office workflow b-roll"]).filter (fun q => q ≠ "")

/-- The query `(topic_hint or title or content or "").lower()`. -/
def backgroundQuery (title content : String) (topic_hint : Option String) : String :=
  lowerStr (pyOr (pyOr (pyOr (topic_hint.getD "") title) content) "")

/-- The `candidates` list of `pick_background_url`: the lean/process
group is appended first, then the ai group, each guarded by a substring
match of its keywords against the query. -/
def curatedCandidates (query : String) : List String :=
  (if leanKeywords.any (fun k => strIn k query) then
    curatedLeanUrls ++ curatedProcessUrls else []) ++
  (if aiKeywords.any (fun k => strIn k query) then curatedAiUrls else [])

/-- Function `pick_background_url` from `src/app.py`.  The Pexels collaborator is
the oracle `search` (`pexels_search_video` swallows every transport and
parsing failure and returns `None`, modelled by `Option`); `hasKey`
models whether `PEXELS_API_KEY` is configured.  A searched URL is only
used when it is truthy (non-empty), mirroring `if url: return url`. -/
def pick_background_url (hasKey : Bool) (search : String → Option String)
    (title content : String) (topic_hint : Option String) : String :=
  let candidates := curatedCandidates (backgroundQuery title content topic_hint)
  let hit :=
    if hasKey then
      (searchQueries title topic_hint).findSome? fun q =>
        match search q with
        | some u => if u = "" then none else some u
        | none => none
    else none
  match hit with
  | some url => url
  | none => (if candidates.isEmpty then curatedDefaultUrls else candidates).headD ""

/-- One rolling caption: its text, start offset and duration (seconds). -/
structure CaptionChunk where
  text : String
  start : ℚ
  dur : ℚ
deriving DecidableEq, Repr

/-- Quantity `approx_segments = max(3, int(out_dur // 2.5))` from `build_video`. -/
def approxSegments (d : ℚ) : ℕ := max 3 (⌊d / (5 / 2)⌋.toNat)

/-- Quantity `seg_dur = min(4.0, max(1.4, out_dur / approx_segments))`. -/
def segDur (d : ℚ) (approx : ℕ) : ℚ := min 4 (max (7 / 5) (d / approx))

/-- The caption loop of `build_video`, structurally recursive on a fuel
bound on the number of iterations: starting at offset `t`, emit the next
`w` words as a chunk of duration `sd`, advance `t` by `sd`, and stop
when the words run out (`if not chunk: break`) or the accumulated
offset reaches `d` (`if t >= out_dur: break`).  Each iteration consumes
at least one word (`w ≥ 6` in use), so any `fuel ≥` word count makes
the fuel bound inert; `segLoop` fixes `fuel` to the word count. -/
def segLoopGo (w : ℕ) (sd d : ℚ) : ℕ → List (List Char) → ℚ → List CaptionChunk
  | _, [], _ => []
  | 0, _ :: _, _ => []
  | fuel + 1, g :: gs, t =>
    ⟨(joinSp ((g :: gs).take w)).asString, t, sd⟩ ::
      (if d ≤ t + sd then []
       else segLoopGo w sd d fuel ((g :: gs).drop w) (t + sd))

/-- The caption loop of `build_video` (fuel instantiated). -/
def segLoop (w : ℕ) (sd d : ℚ) (ws : List (List Char)) (t : ℚ) : List CaptionChunk :=
  segLoopGo w sd d ws.length ws t

/-- Quantity `words_per_seg = max(6, total_words // approx_segments)`. -/
def wordsPerSegment (total approx : ℕ) : ℕ := max 6 (total / approx)

/-- The caption segmenter of `build_video` (lines 263–280 of
`src/app.py`): `total_words = max(1, len(trimmed_text.split()))`,
`words_per_seg = max(6, total_words // approx_segments)`, then the
chunk loop starting at offset `0`. -/
def segmentCaptions (text : String) (d : ℚ) : List CaptionChunk :=
  let words := wsplit text.data
  let total : ℕ := max 1 words.length
  let approx := approxSegments d
  segLoop (wordsPerSegment total approx) (segDur d approx) d words 0

/-- Quantity `out_dur = min(max(audio.duration, 30), float(target_duration),
float(video_bg.duration))` from `build_video`. -/
def resolveOutDur (audioDuration : ℚ) (target_duration : ℕ) (bgDuration : ℚ) : ℚ :=
  min (min (max audioDuration 30) (target_duration : ℚ)) bgDuration

/-- One layer of the assembled timeline (the `overlays` list of
`build_video`).  The background layer records whether its audio track
was replaced by the narration+music mix. -/
inductive TimelineLayer
  | background (dur : ℚ) (withMusic : Bool)
  | titleCard (start dur : ℚ)
  | logoOverlay (start dur : ℚ)
  | caption (c : CaptionChunk)
deriving DecidableEq, Repr

/-- The fully resolved plan `build_video` hands to the renderer. -/
structure RenderPlan where
  resolvedDurationSeconds : ℚ
  layers : List TimelineLayer
  outName : String
deriving DecidableEq, Repr

/-- The music step of `build_video` replaces the audio of `overlays[0]`
with the narration/music mix. -/
def mixMusic : List TimelineLayer → List TimelineLayer
  | TimelineLayer.background d _ :: rest => TimelineLayer.background d true :: rest
  | l => l

/-- Plan construction of `build_video` (`src/app.py`, lines 205–312).
The I/O collaborators are abstracted: `audioDuration` and `bgDuration`
are the probed durations of the synthesized narration and the
downloaded background clip; `titleOk`, `logoOk`, `captionsOk`,
`musicOk` record whether the corresponding fallible collaborator call
(Pillow title render, logo decode, caption render loop, music
download/mix) succeeds — the source wraps each of those optional steps
in `try: … except Exception: pass`, so a failure skips only that step's
layers. -/
def build_video (title narration_text : String) (target_duration : ℕ)
    (audioDuration bgDuration : ℚ)
    (hasLogo enable_captions add_title_card bgm_mix : Bool)
    (titleOk logoOk captionsOk musicOk : Bool) : RenderPlan :=
  let trimmed_text := trim_to_duration narration_text target_duration
  let out_dur := resolveOutDur audioDuration target_duration bgDuration
  let l1 := [TimelineLayer.background out_dur false] ++
    (if add_title_card && titleOk then [TimelineLayer.titleCard 0 (min 3 out_dur)] else [])
  let l2 := l1 ++ (if hasLogo && logoOk then [TimelineLayer.logoOverlay 0 out_dur] else [])
  let l3 := l2 ++
    (if enable_captions && captionsOk then
      (segmentCaptions trimmed_text out_dur).map TimelineLayer.caption else [])
  let l4 := if bgm_mix && musicOk then mixMusic l3 else l3
  ⟨out_dur, l4, slugify title ++ ".mp4"⟩

/-! ### List utilities: `dropWhile`, `stripEnds` -/

theorem head_dropWhile_false {α : Type} (p : α → Bool) (l : List α) :
    ∀ x ∈ (l.dropWhile p).head?, p x = false := by
  induction l with
  | nil => simp
  | cons c t ih =>
    by_cases h : p c
    · simpa [List.dropWhile_cons, h] using ih
    · simp only [Bool.not_eq_true] at h
      simp [List.dropWhile_cons, h]

theorem dropWhile_eq_self_of_head {α : Type} (p : α → Bool) (l : List α)
    (h : ∀ x ∈ l.head?, p x = false) : l.dropWhile p = l := by
  cases l with
  | nil => rfl
  | cons c t =>
    have hc : p c = false := h c rfl
    simp [List.dropWhile_cons, hc]

theorem getLast?_dropWhile {α : Type} (p : α → Bool) (l : List α)
    (h : l.dropWhile p ≠ []) : (l.dropWhile p).getLast? = l.getLast? := by
  induction l with
  | nil => simp at h
  | cons c t ih =>
    by_cases hp : p c
    · rw [List.dropWhile_cons_of_pos hp] at h ⊢
      have ht : t ≠ [] := by
        intro he
        exact h (by simp [he])
      rw [ih h]
      cases t with
      | nil => exact absurd rfl ht
      | cons b t2 => rw [List.getLast?_cons_cons]
    · rw [List.dropWhile_cons_of_neg hp]

theorem stripEnds_head (p : Char → Bool) (l : List Char) :
    ∀ x ∈ (stripEnds p l).head?, p x = false := by
  intro x hx
  unfold stripEnds at hx
  rw [List.head?_reverse] at hx
  by_cases hnil : ((l.dropWhile p).reverse.dropWhile p) = []
  · simp [hnil] at hx
  · rw [getLast?_dropWhile p _ hnil, List.getLast?_reverse] at hx
    exact head_dropWhile_false p l x hx

theorem stripEnds_getLast (p : Char → Bool) (l : List Char) :
    ∀ x ∈ (stripEnds p l).getLast?, p x = false := by
  intro x hx
  unfold stripEnds at hx
  rw [List.getLast?_reverse] at hx
  exact head_dropWhile_false p _ x hx

theorem stripEnds_eq_self (p : Char → Bool) (l : List Char)
    (hh : ∀ x ∈ l.head?, p x = false) (hl : ∀ x ∈ l.getLast?, p x = false) :
    stripEnds p l = l := by
  unfold stripEnds
  rw [dropWhile_eq_self_of_head p l hh]
  rw [dropWhile_eq_self_of_head p l.reverse (by simpa [List.head?_reverse] using hl)]
  exact List.reverse_reverse l

theorem stripEnds_idem (p : Char → Bool) (l : List Char) :
    stripEnds p (stripEnds p l) = stripEnds p l :=
  stripEnds_eq_self p _ (stripEnds_head p l) (stripEnds_getLast p l)

/-! ### Word splitting: every word of `wsplit` is a non-empty run of
non-whitespace characters, splitting a space-join recovers the words,
and stripping does not change the words. -/

/-- A word as produced by `wsplit`: non-empty, no whitespace. -/
def PureWord (g : List Char) : Prop :=
  g ≠ [] ∧ ∀ c ∈ g, c.isWhitespace = false

theorem wsplitAux_pure (l : List Char) :
    ∀ acc, (∀ c ∈ acc, c.isWhitespace = false) →
      ∀ g ∈ wsplitAux l acc, PureWord g := by
  induction l with
  | nil =>
    intro acc hacc g hg
    simp only [wsplitAux] at hg
    by_cases ha : acc.isEmpty
    · simp [ha] at hg
    · rw [if_neg ha, List.mem_singleton] at hg
      subst hg
      have hne : acc ≠ [] := by simpa [List.isEmpty_iff] using ha
      exact ⟨by simpa using hne, by simpa using hacc⟩
  | cons c cs ih =>
    intro acc hacc g hg
    by_cases hw : c.isWhitespace
    · by_cases ha : acc.isEmpty
      · rw [wsplitAux, if_pos hw, if_pos ha] at hg
        exact ih [] (by simp) g hg
      · rw [wsplitAux, if_pos hw, if_neg ha] at hg
        rcases List.mem_cons.mp hg with h | h
        · subst h
          have hne : acc ≠ [] := by simpa [List.isEmpty_iff] using ha
          exact ⟨by simpa using hne, by simpa using hacc⟩
        · exact ih [] (by simp) g h
    · rw [wsplitAux, if_neg hw] at hg
      refine ih (c :: acc) ?_ g hg
      intro x hx
      rcases List.mem_cons.mp hx with h | h
      · subst h
        simpa using hw
      · exact hacc x h

theorem wsplit_pure (l : List Char) : ∀ g ∈ wsplit l, PureWord g :=
  wsplitAux_pure l [] (by simp)

theorem wsplitAux_consume (g : List Char) (hg : ∀ c ∈ g, c.isWhitespace = false) :
    ∀ (r acc : List Char), wsplitAux (g ++ r) acc = wsplitAux r (g.reverse ++ acc) := by
  induction g with
  | nil => intro r acc; simp
  | cons c g2 ih =>
    intro r acc
    have hc : c.isWhitespace = false := hg c (List.mem_cons_self c g2)
    have hg2 : ∀ x ∈ g2, x.isWhitespace = false := fun x hx => hg x (List.mem_cons_of_mem c hx)
    rw [List.cons_append, wsplitAux, if_neg (by simp [hc]), ih hg2 r (c :: acc)]
    simp

theorem wsplitAux_space (r acc : List Char) :
    wsplitAux (' ' :: r) acc =
      if acc.isEmpty then wsplitAux r [] else acc.reverse :: wsplitAux r [] := by
  rw [wsplitAux, if_pos (by decide)]

theorem wsplit_joinSp (gs : List (List Char)) (h : ∀ g ∈ gs, PureWord g) :
    wsplit (joinSp gs) = gs := by
  induction gs with
  | nil => rfl
  | cons g gs2 ih =>
    obtain ⟨hne, hpure⟩ := h g (List.mem_cons_self g gs2)
    cases gs2 with
    | nil =>
      show wsplitAux (joinSp [g]) [] = [g]
      have : joinSp [g] = g ++ [] := by simp [joinSp]
      rw [this, wsplitAux_consume g hpure [] []]
      have hge : g.reverse.isEmpty = false := by
        simp [List.isEmpty_iff, hne]
      simp [wsplitAux, hge]
    | cons g2 gs3 =>
      have htail : ∀ x ∈ g2 :: gs3, PureWord x := fun x hx =>
        h x (List.mem_cons_of_mem g hx)
      show wsplitAux (joinSp (g :: g2 :: gs3)) [] = g :: g2 :: gs3
      rw [joinSp, wsplitAux_consume g hpure (' ' :: joinSp (g2 :: gs3)) [],
        wsplitAux_space]
      rw [if_neg (by simp only [List.append_nil, List.isEmpty_iff,
        List.reverse_eq_nil_iff]; exact hne)]
      simpa using ih htail

theorem wsplitAux_append_allws (r : List Char) (hr : ∀ c ∈ r, c.isWhitespace = true) :
    ∀ (l acc : List Char), wsplitAux (l ++ r) acc = wsplitAux l acc := by
  have hnil : ∀ r2, (∀ c ∈ r2, c.isWhitespace = true) → wsplitAux r2 [] = [] := by
    intro r2 hr2
    induction r2 with
    | nil => rfl
    | cons c t iht =>
      have hc := hr2 c (List.mem_cons_self c t)
      have ht := fun x hx => hr2 x (List.mem_cons_of_mem c hx)
      simp only [wsplitAux, hc]
      simpa using iht ht
  intro l
  induction l with
  | nil =>
    intro acc
    rw [List.nil_append]
    cases r with
    | nil => rfl
    | cons c t =>
      have hc := hr c (List.mem_cons_self c t)
      have ht : ∀ x ∈ t, x.isWhitespace = true := fun x hx => hr x (List.mem_cons_of_mem c hx)
      by_cases ha : acc.isEmpty <;> simp [wsplitAux, hc, hnil t ht, ha]
  | cons c l2 ih =>
    intro acc
    simp only [List.cons_append, wsplitAux, List.append_eq, ih]

theorem wsplit_dropWhile_ws (l : List Char) :
    wsplit (l.dropWhile Char.isWhitespace) = wsplit l := by
  induction l with
  | nil => rfl
  | cons c t ih =>
    by_cases hw : c.isWhitespace
    · rw [List.dropWhile_cons_of_pos hw, ih]
      show wsplit t = wsplitAux (c :: t) []
      simp [wsplit, wsplitAux, hw]
    · rw [List.dropWhile_cons_of_neg hw]

theorem wsplit_stripWs (l : List Char) : wsplit (stripWs l) = wsplit l := by
  have h1 : wsplit l = wsplit (l.dropWhile Char.isWhitespace) :=
    (wsplit_dropWhile_ws l).symm
  set l1 := l.dropWhile Char.isWhitespace with hl1
  have hsplit :
      (l1.reverse.dropWhile Char.isWhitespace).reverse ++
        (l1.reverse.takeWhile Char.isWhitespace).reverse = l1 := by
    rw [← List.reverse_append, List.takeWhile_append_dropWhile, List.reverse_reverse]
  have hws : ∀ c ∈ (l1.reverse.takeWhile Char.isWhitespace).reverse,
      c.isWhitespace = true := by
    intro c hc
    rw [List.mem_reverse] at hc
    exact List.mem_takeWhile_imp hc
  have : wsplit l1 = wsplit (stripWs l) := by
    conv_lhs => rw [← hsplit]
    exact wsplitAux_append_allws _ hws _ []
  rw [h1, this]

/-! ### Slugify: the output is a well-formed slug -/

/-- No two adjacent hyphens. -/
def NoDoubleDash (l : List Char) : Prop :=
  l.Chain' fun a b => ¬(a = '-' ∧ b = '-')

theorem squashAux_chars (l : List Char) :
    ∀ f, ∀ c ∈ squashAux l f, isSlugChar c = true ∨ c = '-' := by
  induction l with
  | nil => intro f c hc; simp [squashAux] at hc
  | cons a t ih =>
    intro f c hc
    by_cases hs : isSlugChar a
    · rw [squashAux, if_pos hs] at hc
      rcases List.mem_cons.mp hc with h | h
      · exact Or.inl (h ▸ hs)
      · exact ih false c h
    · rw [squashAux, if_neg hs] at hc
      by_cases hf : f
      · rw [if_pos hf] at hc
        exact ih true c hc
      · rw [if_neg hf] at hc
        rcases List.mem_cons.mp hc with h | h
        · exact Or.inr h
        · exact ih true c h

theorem squashAux_true_head (l : List Char) :
    ∀ c ∈ (squashAux l true).head?, isSlugChar c = true := by
  induction l with
  | nil => simp [squashAux]
  | cons a t ih =>
    intro c hc
    by_cases hs : isSlugChar a
    · rw [squashAux, if_pos hs] at hc
      simp only [List.head?_cons, Option.mem_def, Option.some.injEq] at hc
      exact hc ▸ hs
    · rw [squashAux, if_neg hs, if_pos rfl] at hc
      exact ih c hc

theorem squashAux_noDD (l : List Char) : ∀ f, NoDoubleDash (squashAux l f) := by
  induction l with
  | nil => intro f; simp [squashAux, NoDoubleDash]
  | cons a t ih =>
    intro f
    by_cases hs : isSlugChar a
    · rw [NoDoubleDash, squashAux, if_pos hs, List.chain'_cons']
      refine ⟨?_, ih false⟩
      intro y _
      intro hcon
      rw [hcon.1] at hs
      exact absurd hs (by decide)
    · by_cases hf : f
      · rw [NoDoubleDash, squashAux, if_neg hs, if_pos hf]
        exact ih true
      · rw [NoDoubleDash, squashAux, if_neg hs, if_neg hf, List.chain'_cons']
        refine ⟨?_, ih true⟩
        intro y hy
        have := squashAux_true_head t y hy
        intro hcon
        rw [hcon.2] at this
        exact absurd this (by decide)

theorem chain'_dropWhile {α : Type} {R : α → α → Prop} (p : α → Bool) {l : List α}
    (h : l.Chain' R) : (l.dropWhile p).Chain' R := by
  induction l with
  | nil => simpa using h
  | cons a t ih =>
    by_cases hp : p a
    · rw [List.dropWhile_cons_of_pos hp]
      exact ih (List.chain'_cons'.mp h).2
    · rwa [List.dropWhile_cons_of_neg hp]

theorem noDD_stripEnds (p : Char → Bool) (l : List Char) (h : NoDoubleDash l) :
    NoDoubleDash (stripEnds p l) := by
  unfold stripEnds NoDoubleDash
  rw [List.chain'_reverse]
  apply chain'_dropWhile
  rw [List.chain'_reverse]
  exact chain'_dropWhile p h

theorem mem_stripEnds (p : Char → Bool) (l : List Char) :
    ∀ c ∈ stripEnds p l, c ∈ l := by
  intro c hc
  unfold stripEnds at hc
  rw [List.mem_reverse] at hc
  have h1 := List.dropWhile_subset p hc
  rw [List.mem_reverse] at h1
  exact List.dropWhile_subset p h1

/-- C10:  For every input title string — including the empty string
and strings with no letters or digits — `slugify` returns a non-empty
string made only of lowercase letters, digits and single hyphens, with
no leading or trailing hyphen; when nothing survives normalization it
falls back to `"ksm-video"`.  Hence the output filename
`slugify title ++ ".mp4"` is always well-formed. -/
theorem slugify_wellformed (text : String) :
    slugify text ≠ "" ∧
    (∀ c ∈ (slugify text).data, isSlugChar c = true ∨ c = '-') ∧
    NoDoubleDash (slugify text).data ∧
    (slugify text).data.head? ≠ some '-' ∧
    (slugify text).data.getLast? ≠ some '-' ∧
    (stripDash (squash ((stripWs
        (if text = "" then "ksm-video" else text).data).map Char.toLower)) = [] →
      slugify text = "ksm-video") := by
  set m := (stripWs (if text = "" then "ksm-video" else text).data).map Char.toLower with hm
  have hs : slugify text =
      if stripDash (squash m) = [] then "ksm-video"
      else (stripDash (squash m)).asString := rfl
  by_cases hr : stripDash (squash m) = []
  · rw [hs, if_pos hr]
    refine ⟨by decide, by decide, ?_, by decide, by decide, fun _ => rfl⟩
    have hd : ("ksm-video" : String).data = ['k', 's', 'm', '-', 'v', 'i', 'd', 'e', 'o'] := rfl
    unfold NoDoubleDash
    rw [hd]
    simp only [List.chain'_cons, List.chain'_singleton]
    decide
  · rw [hs, if_neg hr]
    have hdata : (stripDash (squash m)).asString.data = stripDash (squash m) := rfl
    refine ⟨?_, ?_, ?_, ?_, ?_, fun h => absurd h hr⟩
    · intro he
      exact hr (congrArg String.data he)
    · intro c hc
      rw [hdata] at hc
      exact squashAux_chars m false c (mem_stripEnds _ _ c hc)
    · rw [hdata]
      exact noDD_stripEnds _ _ (squashAux_noDD m false)
    · rw [hdata]
      intro he
      have hmem : '-' ∈ (stripEnds (· == '-') (squash m)).head? := by
        rw [Option.mem_def]
        exact he
      have := stripEnds_head (· == '-') (squash m) '-' hmem
      simp at this
    · rw [hdata]
      intro he
      have hmem : '-' ∈ (stripEnds (· == '-') (squash m)).getLast? := by
        rw [Option.mem_def]
        exact he
      have := stripEnds_getLast (· == '-') (squash m) '-' hmem
      simp at this

/-! ### Space-joining lemmas -/

theorem joinSp_append_last (xs : List (List Char)) (y z : List Char) :
    joinSp (xs ++ [y]) ++ z = joinSp (xs ++ [y ++ z]) := by
  induction xs with
  | nil => simp [joinSp]
  | cons a xs2 ih =>
    cases xs2 with
    | nil => simp [joinSp, List.append_assoc]
    | cons b xs3 =>
      show joinSp (a :: (b :: xs3 ++ [y])) ++ z = joinSp (a :: (b :: xs3 ++ [y ++ z]))
      rw [show joinSp (a :: (b :: xs3 ++ [y])) = a ++ ' ' :: joinSp (b :: xs3 ++ [y]) from rfl,
        show joinSp (a :: (b :: xs3 ++ [y ++ z])) = a ++ ' ' :: joinSp (b :: xs3 ++ [y ++ z])
          from rfl, List.append_assoc, List.cons_append, ← ih]

theorem joinSp_head (g : List Char) (gs : List (List Char)) (hne : g ≠ []) :
    (joinSp (g :: gs)).head? = g.head? := by
  cases gs with
  | nil => rfl
  | cons g2 gs2 =>
    show (g ++ ' ' :: joinSp (g2 :: gs2)).head? = g.head?
    cases g with
    | nil => exact absurd rfl hne
    | cons c t => rfl

/-! ### C9: the speaking-time estimator -/

/-- C9:  `estimate_speaking_time_seconds` always returns at least
1 second, and is monotonically non-decreasing in the word count of its
input: a text with at least as many words gets at least as large an
estimate. -/
theorem estimate_speaking_monotone (s1 s2 : String)
    (h : (wsplit s1.data).length ≤ (wsplit s2.data).length) :
    1 ≤ estimate_speaking_time_seconds s1 ∧
      estimate_speaking_time_seconds s1 ≤ estimate_speaking_time_seconds s2 := by
  unfold estimate_speaking_time_seconds
  rw [wsplit_stripWs s1.data, wsplit_stripWs s2.data]
  constructor
  · have h1 : (0 : ℚ) < ((max 1 (wsplit s1.data).length : ℕ) : ℚ) / (11 / 5) := by
      apply div_pos
      · exact_mod_cast Nat.lt_of_lt_of_le Nat.zero_lt_one (le_max_left 1 _)
      · norm_num
    have := Int.ceil_pos.mpr h1
    omega
  · apply Int.ceil_le_ceil
    apply div_le_div_of_nonneg_right ?_ (by norm_num)
    exact_mod_cast max_le_max le_rfl h

/-- Witness for C9 at concrete inputs. -/
theorem estimate_speaking_monotone_witness :
    (wsplit ("a b").data).length ≤ (wsplit ("c d e").data).length ∧
      1 ≤ estimate_speaking_time_seconds ("a b") ∧
      estimate_speaking_time_seconds ("a b") ≤ estimate_speaking_time_seconds ("c d e") :=
  ⟨by decide, (estimate_speaking_monotone ("a b") ("c d e") (by decide)).1,
    (estimate_speaking_monotone ("a b") ("c d e") (by decide)).2⟩

/-! ### C1 and C3: the resolved output duration -/

/-- C1:  The resolved output duration recorded in the plan built by
`build_video` is exactly `min(max(audioDuration, 30), targetDuration,
backgroundDuration)`. -/
theorem build_video_resolvedDuration (title narration : String) (target : ℕ) (a b : ℚ)
    (hasLogo ec atc bgm tOk lOk cOk mOk : Bool) :
    (build_video title narration target a b hasLogo ec atc bgm
        tOk lOk cOk mOk).resolvedDurationSeconds =
      min (max a 30) (min (target : ℚ) b) := by
  show resolveOutDur a target b = _
  unfold resolveOutDur
  rw [min_assoc]

/-- C3, counterexample:  With narration audio of 30 s (`≥ 30`),
target 30 s (in `[30,90]`) and a background clip of only 10 s, the
resolved duration is 10, strictly below the claimed lower bound 30. -/
theorem resolved_below30_cex :
    resolveOutDur 30 30 10 = 10 ∧ ¬((30 : ℚ) ≤ resolveOutDur 30 30 10) := by
  constructor <;> · unfold resolveOutDur; norm_num

/-- C3, amended:  If additionally the background clip lasts at
least 30 s, then `30 ≤ resolvedDuration ≤ min(target, background)`;
and whenever the narration audio is the smallest of the three
reconciled quantities the resolved duration equals it exactly. -/
theorem resolveOutDur_bounds (a : ℚ) (t : ℕ) (b : ℚ)
    (ha : 30 ≤ a) (ht1 : 30 ≤ t) (ht2 : t ≤ 90) (hb : 30 ≤ b) :
    30 ≤ resolveOutDur a t b ∧
    resolveOutDur a t b ≤ min (t : ℚ) b ∧
    (a ≤ (t : ℚ) → a ≤ b → resolveOutDur a t b = a) := by
  unfold resolveOutDur
  rw [max_eq_left ha]
  refine ⟨?_, ?_, ?_⟩
  · rw [le_min_iff, le_min_iff]
    exact ⟨⟨ha, by exact_mod_cast ht1⟩, hb⟩
  · exact min_le_min (min_le_right a _) le_rfl
  · intro h1 h2
    rw [min_eq_left h1, min_eq_left h2]

/-- Witness for C3 (amended) at concrete inputs. -/
theorem resolveOutDur_bounds_witness :
    (30 : ℚ) ≤ 40 ∧ 30 ≤ 60 ∧ 60 ≤ 90 ∧ (30 : ℚ) ≤ 50 ∧
      30 ≤ resolveOutDur 40 60 50 ∧ resolveOutDur 40 60 50 ≤ min ((60 : ℕ) : ℚ) 50 ∧
      resolveOutDur 40 60 50 = 40 :=
  ⟨by norm_num, by norm_num, by norm_num, by norm_num,
    (resolveOutDur_bounds 40 60 50 (by norm_num) (by norm_num) (by norm_num) (by norm_num)).1,
    (resolveOutDur_bounds 40 60 50 (by norm_num) (by norm_num) (by norm_num) (by norm_num)).2.1,
    (resolveOutDur_bounds 40 60 50 (by norm_num) (by norm_num) (by norm_num)
      (by norm_num)).2.2 (by norm_num) (by norm_num)⟩

/-! ### C4: trimming to the word budget -/

theorem stripWs_idem (l : List Char) : stripWs (stripWs l) = stripWs l :=
  stripEnds_idem _ l

theorem trim_eq_of_fits (text : String) (t : ℕ)
    (h : (wsplit (stripWs text.data)).length ≤ max 35 (11 * t / 5)) :
    trim_to_duration text t = (stripWs text.data).asString := by
  unfold trim_to_duration
  rw [if_pos h]

theorem trim_eq_of_over (text : String) (t : ℕ)
    (h : ¬(wsplit (stripWs text.data)).length ≤ max 35 (11 * t / 5)) :
    trim_to_duration text t =
      (joinSp ((wsplit (stripWs text.data)).take (max 35 (11 * t / 5))) ++ ['…']).asString := by
  unfold trim_to_duration
  rw [if_neg h]

/-- The truncated branch of `trim_to_duration` produces a string whose
words are the first `max_words` words, the last carrying the appended
ellipsis; and the string has no leading or trailing whitespace. -/
theorem trim_over_core (ws : List (List Char)) (mw : ℕ) (hpure : ∀ g ∈ ws, PureWord g)
    (hlt : mw < ws.length) (hpos : 1 ≤ mw) :
    (wsplit (joinSp (ws.take mw) ++ ['…'])).length = mw ∧
    stripWs (joinSp (ws.take mw) ++ ['…']) = joinSp (ws.take mw) ++ ['…'] := by
  have hlen : (ws.take mw).length = mw := by
    rw [List.length_take]
    exact min_eq_left (le_of_lt hlt)
  have hWne : ws.take mw ≠ [] := by
    apply List.length_pos.mp
    omega
  have hpureW : ∀ g ∈ ws.take mw, PureWord g :=
    fun g hg => hpure g (List.take_subset _ _ hg)
  have hdec : (ws.take mw).dropLast ++ [(ws.take mw).getLast hWne] = ws.take mw :=
    List.dropLast_append_getLast hWne
  have hjoin : joinSp (ws.take mw) ++ ['…'] =
      joinSp ((ws.take mw).dropLast ++ [(ws.take mw).getLast hWne ++ ['…']]) := by
    conv_lhs => rw [← hdec]
    exact joinSp_append_last _ _ _
  have hpure2 : ∀ g ∈ (ws.take mw).dropLast ++ [(ws.take mw).getLast hWne ++ ['…']],
      PureWord g := by
    intro g hg
    rcases List.mem_append.mp hg with h | h
    · exact hpureW g ((List.dropLast_sublist _).subset h)
    · rw [List.mem_singleton] at h
      subst h
      obtain ⟨hne2, hws2⟩ := hpureW _ (List.getLast_mem hWne)
      refine ⟨by simp, ?_⟩
      intro c hc
      rcases List.mem_append.mp hc with h2 | h2
      · exact hws2 c h2
      · rw [List.mem_singleton] at h2
        subst h2
        decide
  have hsplit : wsplit (joinSp (ws.take mw) ++ ['…']) =
      (ws.take mw).dropLast ++ [(ws.take mw).getLast hWne ++ ['…']] := by
    rw [hjoin]
    exact wsplit_joinSp _ hpure2
  constructor
  · rw [hsplit]
    simp only [List.length_append, List.length_dropLast, List.length_singleton, hlen]
    omega
  · apply stripEnds_eq_self
    · intro x hx
      rw [hjoin] at hx
      cases hW2 : (ws.take mw).dropLast ++ [(ws.take mw).getLast hWne ++ ['…']] with
      | nil => rw [hW2] at hx; simp [joinSp] at hx
      | cons g0 gs0 =>
        rw [hW2] at hx
        obtain ⟨hne0, hpw0⟩ := hpure2 g0 (by rw [hW2]; exact List.mem_cons_self _ _)
        rw [joinSp_head g0 gs0 hne0] at hx
        cases g0 with
        | nil => exact absurd rfl hne0
        | cons c0 t0 =>
          simp only [List.head?_cons, Option.mem_def, Option.some.injEq] at hx
          subst hx
          exact hpw0 _ (List.mem_cons_self _ _)
    · intro x hx
      rw [List.getLast?_concat] at hx
      simp only [Option.mem_def, Option.some.injEq] at hx
      subst hx
      decide

/-- C4, counterexample:  `" hi "` has 1 word, far below the budget
`max(35, int(30 × 2.2)) = 66`, yet `trim_to_duration` does not return
it unchanged: it returns the stripped string `"hi"`. -/
theorem trim_unchanged_cex :
    (wsplit (stripWs (" hi ").data)).length ≤ max 35 (11 * 30 / 5) ∧
    trim_to_duration (" hi ") 30 = ("hi") ∧
    trim_to_duration (" hi ") 30 ≠ (" hi ") := by
  refine ⟨by decide, by decide, by decide⟩

/-- C4, amended:  For every text and every target in `[30, 90]`,
the output of `trim_to_duration` has at most
`max(35, ⌊target × 2.2⌋) = max 35 (11 * target / 5)` words; when the
input already satisfies the bound the output is the input *stripped of
surrounding whitespace* (but otherwise unchanged); and trimming is
idempotent. -/
theorem trim_to_duration_spec (text : String) (t : ℕ) (ht1 : 30 ≤ t) (ht2 : t ≤ 90) :
    (wsplit (trim_to_duration text t).data).length ≤ max 35 (11 * t / 5) ∧
    ((wsplit (stripWs text.data)).length ≤ max 35 (11 * t / 5) →
      trim_to_duration text t = pyStrip text) ∧
    trim_to_duration (trim_to_duration text t) t = trim_to_duration text t := by
  have hpos : 1 ≤ max 35 (11 * t / 5) := le_trans (by norm_num) (le_max_left _ _)
  by_cases hfit : (wsplit (stripWs text.data)).length ≤ max 35 (11 * t / 5)
  · have he := trim_eq_of_fits text t hfit
    have hdata : (trim_to_duration text t).data = stripWs text.data := by rw [he]; rfl
    refine ⟨?_, fun _ => he, ?_⟩
    · rw [hdata, wsplit_stripWs, ← wsplit_stripWs text.data]
      exact hfit
    · rw [he]
      have hredata : ((stripWs text.data).asString).data = stripWs text.data := rfl
      have h2 : wsplit (stripWs ((stripWs text.data).asString).data) =
          wsplit (stripWs text.data) := by
        rw [hredata, stripWs_idem]
      rw [trim_eq_of_fits ((stripWs text.data).asString) t (by rw [h2]; exact hfit),
        hredata, stripWs_idem]
  · push_neg at hfit
    obtain ⟨hcount, hnop⟩ := trim_over_core (wsplit (stripWs text.data))
      (max 35 (11 * t / 5)) (wsplit_pure _) hfit hpos
    have he := trim_eq_of_over text t (not_le.mpr hfit)
    have hdata : (trim_to_duration text t).data =
        joinSp ((wsplit (stripWs text.data)).take (max 35 (11 * t / 5))) ++ ['…'] := by
      rw [he]; rfl
    refine ⟨?_, fun hf => absurd hf (not_le.mpr hfit), ?_⟩
    · rw [hdata, hcount]
    · rw [he]
      have hsdata : ((joinSp ((wsplit (stripWs text.data)).take
          (max 35 (11 * t / 5))) ++ ['…']).asString).data =
          joinSp ((wsplit (stripWs text.data)).take (max 35 (11 * t / 5))) ++ ['…'] := rfl
      rw [trim_eq_of_fits _ t (by rw [hsdata, hnop, hcount]), hsdata, hnop]

/-- Witness for C4 (amended) at concrete inputs. -/
theorem trim_to_duration_spec_witness :
    30 ≤ 30 ∧ 30 ≤ 90 ∧
    (wsplit (stripWs (" hi ").data)).length ≤ max 35 (11 * 30 / 5) ∧
    trim_to_duration (" hi ") 30 = pyStrip (" hi ") ∧
    trim_to_duration (trim_to_duration (" hi ") 30) 30 = trim_to_duration (" hi ") 30 :=
  ⟨by decide, by decide, by decide,
    (trim_to_duration_spec (" hi ") 30 (by decide) (by decide)).2.1 (by decide),
    (trim_to_duration_spec (" hi ") 30 (by decide) (by decide)).2.2⟩

/-! ### The caption segmenter: shape of the produced chunks -/

/-- Caption chunks are contiguous from offset `t`: the first starts at
`t` and each next one starts where the previous ended. -/
def chunksChainFrom : ℚ → List CaptionChunk → Prop
  | _, [] => True
  | t, c :: cs => c.start = t ∧ chunksChainFrom (t + c.dur) cs

theorem segLoopGo_getElem (w : ℕ) (sd d : ℚ) :
    ∀ (fuel : ℕ) (ws : List (List Char)) (t : ℚ) (j : ℕ) (c : CaptionChunk),
      (segLoopGo w sd d fuel ws t)[j]? = some c →
      c = ⟨(joinSp ((ws.drop (j * w)).take w)).asString, t + j * sd, sd⟩ := by
  intro fuel
  induction fuel with
  | zero =>
    intro ws t j c hc
    cases ws <;> simp [segLoopGo] at hc
  | succ fuel ih =>
    intro ws t j c hc
    cases ws with
    | nil => simp [segLoopGo] at hc
    | cons g gs =>
      cases j with
      | zero =>
        rw [segLoopGo] at hc
        simp only [List.getElem?_cons_zero, Option.some.injEq] at hc
        subst hc
        simp
      | succ j =>
        rw [segLoopGo] at hc
        simp only [List.getElem?_cons_succ] at hc
        by_cases hbr : d ≤ t + sd
        · rw [if_pos hbr] at hc
          simp at hc
        · rw [if_neg hbr] at hc
          rw [ih ((g :: gs).drop w) (t + sd) j c hc, List.drop_drop]
          congr 1
          · rw [show w + j * w = (j + 1) * w by ring]
          · push_cast
            ring

theorem segLoopGo_chain (w : ℕ) (sd d : ℚ) :
    ∀ (fuel : ℕ) (ws : List (List Char)) (t : ℚ),
      chunksChainFrom t (segLoopGo w sd d fuel ws t) := by
  intro fuel
  induction fuel with
  | zero => intro ws t; cases ws <;> simp [segLoopGo, chunksChainFrom]
  | succ fuel ih =>
    intro ws t
    cases ws with
    | nil => simp [segLoopGo, chunksChainFrom]
    | cons g gs =>
      rw [segLoopGo]
      refine ⟨rfl, ?_⟩
      by_cases hbr : d ≤ t + sd
      · rw [if_pos hbr]
        exact trivial
      · rw [if_neg hbr]
        exact ih ((g :: gs).drop w) (t + sd)

theorem segLoopGo_sum (w : ℕ) (sd : ℚ) (hsd : 0 < sd) (A : ℕ) :
    ∀ (fuel : ℕ) (ws : List (List Char)) (m : ℕ),
      (m : ℚ) * sd < (A : ℚ) * sd →
      ((segLoopGo w sd ((A : ℚ) * sd) fuel ws ((m : ℚ) * sd)).map
        (fun c => c.dur)).sum ≤ ((A : ℚ) - (m : ℚ)) * sd := by
  have hAm : ∀ m : ℕ, (m : ℚ) * sd < (A : ℚ) * sd → (m : ℚ) + 1 ≤ (A : ℚ) := by
    intro m hm
    have h1 : (m : ℚ) < (A : ℚ) := lt_of_mul_lt_mul_right hm hsd.le
    have h2 : m < A := by exact_mod_cast h1
    exact_mod_cast h2
  intro fuel
  induction fuel with
  | zero =>
    intro ws m hm
    cases ws with
    | nil =>
      simp only [segLoopGo, List.map_nil, List.sum_nil]
      nlinarith [hAm m hm]
    | cons g gs =>
      simp only [segLoopGo, List.map_nil, List.sum_nil]
      nlinarith [hAm m hm]
  | succ fuel ih =>
    intro ws m hm
    cases ws with
    | nil =>
      simp only [segLoopGo, List.map_nil, List.sum_nil]
      nlinarith [hAm m hm]
    | cons g gs =>
      rw [segLoopGo]
      by_cases hbr : (A : ℚ) * sd ≤ (m : ℚ) * sd + sd
      · rw [if_pos hbr]
        simp only [List.map_cons, List.map_nil, List.sum_cons, List.sum_nil, add_zero]
        nlinarith [hAm m hm]
      · rw [if_neg hbr]
        push_neg at hbr
        have hstep : (m : ℚ) * sd + sd = ((m + 1 : ℕ) : ℚ) * sd := by
          push_cast
          ring
        rw [hstep] at hbr ⊢
        have := ih ((g :: gs).drop w) (m + 1) hbr
        simp only [List.map_cons, List.sum_cons]
        push_cast at this ⊢
        linarith

/-- The `j`-th chunk the caption loop would emit: words
`[j·w, (j+1)·w)` joined by spaces, start offset `j·sd`, duration `sd`. -/
def chunkAt (ws : List (List Char)) (w : ℕ) (sd : ℚ) (j : ℕ) : CaptionChunk :=
  ⟨(joinSp ((ws.drop (j * w)).take w)).asString, j * sd, sd⟩

/-- C5:  The segmenter derives `approxSegments = max(3, ⌊d / 2.5⌋)`
and `wordsPerSegment = max(6, totalWords / approxSegments)` (integer
division), splits the word sequence into consecutive groups of
`wordsPerSegment` words, and gives every chunk the same duration
`segDur = clamp(d / approxSegments, 1.4, 4.0)`: the chunk list equals
the range map sending `j` to the chunk holding word group `j` at start
offset `j · segDur` with duration `segDur`. -/
theorem segmentCaptions_chunks (text : String) (d : ℚ) :
    segmentCaptions text d =
      (List.range (segmentCaptions text d).length).map
        (chunkAt (wsplit text.data)
          (wordsPerSegment (max 1 (wsplit text.data).length) (approxSegments d))
          (segDur d (approxSegments d))) := by
  apply List.ext_getElem?
  intro n
  by_cases hn : n < (segmentCaptions text d).length
  · obtain ⟨c, hc⟩ : ∃ c, (segmentCaptions text d)[n]? = some c :=
      ⟨_, List.getElem?_eq_getElem hn⟩
    rw [hc, List.getElem?_map, List.getElem?_range hn]
    have := segLoopGo_getElem _ _ _ _ _ _ n c hc
    rw [this]
    simp only [Option.map_some']
    unfold chunkAt
    congr 1
    rw [zero_add]
  · rw [List.getElem?_eq_none (le_of_not_lt hn), List.getElem?_map,
      List.getElem?_eq_none (by rw [List.length_range]; exact le_of_not_lt hn)]
    rfl

/-! ### C2: contiguity and the duration-sum bound -/

theorem approxSegments_ge3 (d : ℚ) : 3 ≤ approxSegments d := le_max_left _ _

/-- Whenever `d ≥ 21/5` (= 4.2 s), the clamp in `seg_dur` does not
bind: the segment duration is exactly `d / approxSegments d`. -/
theorem segDur_eq_div (d : ℚ) (hd : 21 / 5 ≤ d) :
    segDur d (approxSegments d) = d / approxSegments d := by
  have hA3 := approxSegments_ge3 d
  have hApos : (0 : ℚ) < (approxSegments d : ℚ) := by
    exact_mod_cast lt_of_lt_of_le (by norm_num) hA3
  have hbounds : 7 / 5 ≤ d / (approxSegments d : ℚ) ∧ d / (approxSegments d : ℚ) ≤ 4 := by
    by_cases hcase : d < 15 / 2
    · have hAeq : approxSegments d = 3 := by
        unfold approxSegments
        have hfl : ⌊d / (5 / 2)⌋ ≤ 2 := by
          have h1 : d / (5 / 2) < ((3 : ℤ) : ℚ) := by
            rw [show d / (5 / 2) = 2 / 5 * d by ring]
            push_cast
            linarith
          have h2 := Int.floor_lt.mpr h1
          omega
        omega
      rw [hAeq]
      constructor
      · rw [show ((3 : ℕ) : ℚ) = 3 by norm_num, le_div_iff (by norm_num)]
        linarith
      · rw [show ((3 : ℕ) : ℚ) = 3 by norm_num, div_le_iff (by norm_num)]
        linarith
    · push_neg at hcase
      have hfl3 : 3 ≤ ⌊d / (5 / 2)⌋ := by
        apply Int.le_floor.mpr
        rw [show d / (5 / 2) = 2 / 5 * d by ring]
        push_cast
        linarith
      have hAeq : approxSegments d = ⌊d / (5 / 2)⌋.toNat := by
        unfold approxSegments
        omega
      have hcast : ((approxSegments d : ℕ) : ℚ) = ((⌊d / (5 / 2)⌋ : ℤ) : ℚ) := by
        rw [hAeq]
        exact_mod_cast congrArg Int.cast (Int.toNat_of_nonneg (by omega))
      have hAup : ((approxSegments d : ℕ) : ℚ) ≤ 2 / 5 * d := by
        rw [hcast, show (2 : ℚ) / 5 * d = d / (5 / 2) by ring]
        exact Int.floor_le _
      have hAdown : 2 / 5 * d - 1 < ((approxSegments d : ℕ) : ℚ) := by
        rw [hcast, show (2 : ℚ) / 5 * d = d / (5 / 2) by ring]
        exact Int.sub_one_lt_floor _
      constructor
      · rw [le_div_iff hApos]
        nlinarith
      · rw [div_le_iff hApos]
        nlinarith
  unfold segDur
  rw [max_eq_right hbounds.1, min_eq_right hbounds.2]

theorem segLoopGo_sum_le (w fuel : ℕ) (ws : List (List Char)) (A : ℕ) (sd d : ℚ)
    (hsd : 0 < sd) (hd : d = A * sd) (hdpos : 0 < d) :
    ((segLoopGo w sd d fuel ws 0).map (fun c => c.dur)).sum ≤ d := by
  subst hd
  have h0 : ((0 : ℕ) : ℚ) * sd < (A : ℚ) * sd := by
    push_cast
    rw [zero_mul]
    exact hdpos
  have := segLoopGo_sum w sd hsd A fuel ws 0 h0
  rw [show ((0 : ℕ) : ℚ) * sd = 0 by push_cast; ring] at this
  rw [show ((A : ℚ) - ((0 : ℕ) : ℚ)) * sd = (A : ℚ) * sd by push_cast; ring] at this
  exact this

/-- C2, counterexample:  With resolved duration `1` and narration
`"hello world"`, the segmenter emits a single chunk of duration
`1.4 = 7/5`, whose duration sum exceeds the resolved duration — the
chunk extends 0.4 s past the end of the timeline. -/
theorem captions_overrun_cex :
    segmentCaptions ("hello world") 1 = [⟨"hello world", 0, 7 / 5⟩] ∧
    ¬(((segmentCaptions ("hello world") 1).map (fun c => c.dur)).sum ≤ 1) := by
  have heval : segmentCaptions ("hello world") 1 = [⟨"hello world", 0, 7 / 5⟩] := by
    unfold segmentCaptions segLoop
    rw [show wsplit (("hello world").data) =
      [['h', 'e', 'l', 'l', 'o'], ['w', 'o', 'r', 'l', 'd']] from rfl]
    rw [show approxSegments 1 = 3 by
      unfold approxSegments
      rw [show (⌊((1 : ℚ) / (5 / 2))⌋) = 0 by
        rw [Int.floor_eq_iff] <;> norm_num]
      rfl]
    dsimp only
    rw [show segDur 1 3 = 7 / 5 by unfold segDur; norm_num]
    rw [show wordsPerSegment (1 ⊔ [['h', 'e', 'l', 'l', 'o'],
      ['w', 'o', 'r', 'l', 'd']].length) 3 = 6 from rfl]
    norm_num [segLoopGo, joinSp]
    rfl
  refine ⟨heval, ?_⟩
  rw [heval]
  norm_num

/-- C2, amended:  The chunks are always contiguous and
non-overlapping (`startOffset[0] = 0`,
`startOffset[i+1] = startOffset[i] + duration[i]`); and provided the
resolved duration is at least `4.2` seconds (in particular for every
duration ≥ 30 s), the sum of the chunk durations does not exceed it.
For smaller resolved durations the 1.4 s lower clamp on the chunk
duration can push the final chunk past the end (see the
counterexample). -/
theorem captions_contiguous_bounded (text : String) (d : ℚ) :
    chunksChainFrom 0 (segmentCaptions text d) ∧
    (21 / 5 ≤ d →
      ((segmentCaptions text d).map (fun c => c.dur)).sum ≤ d) := by
  constructor
  · unfold segmentCaptions segLoop
    exact segLoopGo_chain _ _ _ _ _ 0
  · intro hd
    have hA3 := approxSegments_ge3 d
    have hApos : (0 : ℚ) < (approxSegments d : ℚ) := by
      exact_mod_cast lt_of_lt_of_le (by norm_num) hA3
    have hsd := segDur_eq_div d hd
    have hdpos : (0 : ℚ) < d := lt_of_lt_of_le (by norm_num) hd
    have hsdpos : 0 < segDur d (approxSegments d) := by
      rw [hsd]
      exact div_pos hdpos hApos
    unfold segmentCaptions segLoop
    dsimp only
    apply segLoopGo_sum_le _ _ _ (approxSegments d) _ _ hsdpos _ hdpos
    rw [hsd, mul_comm, div_mul_cancel₀ d (ne_of_gt hApos)]

/-- Witness for C2 (amended) at concrete inputs. -/
theorem captions_contiguous_bounded_witness :
    (21 : ℚ) / 5 ≤ 30 ∧
    chunksChainFrom 0 (segmentCaptions ("hello world") 30) ∧
    ((segmentCaptions ("hello world") 30).map (fun c => c.dur)).sum ≤ 30 :=
  ⟨by norm_num, (captions_contiguous_bounded ("hello world") 30).1,
    (captions_contiguous_bounded ("hello world") 30).2 (by norm_num)⟩

/-! ### C7: chunk texts cover an initial segment of the words -/

theorem segLoopGo_words (w : ℕ) (sd d : ℚ) :
    ∀ (fuel : ℕ) (ws : List (List Char)) (t : ℚ), (∀ g ∈ ws, PureWord g) →
      ∃ r, (((segLoopGo w sd d fuel ws t).map
        (fun c => wsplit c.text.data)).flatten) ++ r = ws := by
  intro fuel
  induction fuel with
  | zero =>
    intro ws t _
    cases ws with
    | nil => exact ⟨[], rfl⟩
    | cons g gs => exact ⟨g :: gs, rfl⟩
  | succ fuel ih =>
    intro ws t hp
    cases ws with
    | nil => exact ⟨[], rfl⟩
    | cons g gs =>
      rw [segLoopGo]
      have hpure_take : ∀ x ∈ (g :: gs).take w, PureWord x :=
        fun x hx => hp x (List.take_subset _ _ hx)
      have htext : wsplit (((joinSp ((g :: gs).take w)).asString).data) =
          (g :: gs).take w := by
        rw [show ((joinSp ((g :: gs).take w)).asString).data =
          joinSp ((g :: gs).take w) from rfl]
        exact wsplit_joinSp _ hpure_take
      by_cases hbr : d ≤ t + sd
      · rw [if_pos hbr]
        refine ⟨(g :: gs).drop w, ?_⟩
        simp only [List.map_cons, List.map_nil, List.flatten_cons, List.flatten_nil,
          List.append_nil, htext]
        exact List.take_append_drop w (g :: gs)
      · rw [if_neg hbr]
        obtain ⟨r, hr⟩ := ih ((g :: gs).drop w) (t + sd)
          (fun x hx => hp x (List.drop_subset _ _ hx))
        refine ⟨r, ?_⟩
        simp only [List.map_cons, List.flatten_cons, htext]
        rw [List.append_assoc, hr]
        exact List.take_append_drop w (g :: gs)

/-- C7:  Concatenating (in order) the word sequences of the caption
chunks produced by the segmenter yields an initial segment of the
trimmed narration's word sequence: some (possibly empty) remainder `r`
of trailing words completes it to the full word list. -/
theorem segmentCaptions_front_words (text : String) (d : ℚ) :
    ∃ r, (((segmentCaptions text d).map (fun c => wsplit c.text.data)).flatten) ++ r =
      wsplit text.data := by
  unfold segmentCaptions segLoop
  dsimp only
  exact segLoopGo_words _ _ _ _ _ 0 (wsplit_pure _)

/-! ### C6: background selection is total and always falls back -/

theorem curated_fallback_ne (q : String) :
    ((if (curatedCandidates q).isEmpty then curatedDefaultUrls
      else curatedCandidates q).headD "") ≠ "" := by
  unfold curatedCandidates
  cases hb1 : (leanKeywords.any fun k => strIn k q) <;>
    cases hb2 : (aiKeywords.any fun k => strIn k q) <;> decide

/-- C6:  Background selection is total and never raises: whenever no
search credential is configured, or every external search query fails
(the collaborator oracle returns `none`), the selection still returns
the first matched curated entry — the lean/process group concatenated
before the ai group — and, when no keyword group matches, the hardcoded
default URL; the returned reference is never empty. -/
theorem pick_background_fallback (hasKey : Bool) (search : String → Option String)
    (title content : String) (topic_hint : Option String)
    (hfail : hasKey = false ∨ ∀ q, search q = none) :
    pick_background_url hasKey search title content topic_hint =
      (if (curatedCandidates (backgroundQuery title content topic_hint)).isEmpty
       then curatedDefaultUrls
       else curatedCandidates (backgroundQuery title content topic_hint)).headD "" ∧
    pick_background_url hasKey search title content topic_hint ≠ "" := by
  have hnone : ∀ (l : List String),
      (l.findSome? fun q =>
        match search q with
        | some u => if u = "" then none else some u
        | none => none) = none ∨ hasKey = false := by
    rcases hfail with h | h
    · exact fun _ => Or.inr h
    · intro l
      left
      induction l with
      | nil => rfl
      | cons a t ih =>
        rw [List.findSome?_cons]
        rw [h a]
        exact ih
  have heq : pick_background_url hasKey search title content topic_hint =
      (if (curatedCandidates (backgroundQuery title content topic_hint)).isEmpty
       then curatedDefaultUrls
       else curatedCandidates (backgroundQuery title content topic_hint)).headD "" := by
    unfold pick_background_url
    rcases hnone (searchQueries title topic_hint) with h | h
    · cases hk : hasKey
      · rfl
      · rw [if_pos rfl, h]
    · rw [h]
      rfl
  exact ⟨heq, heq ▸ curated_fallback_ne _⟩

/-- Witness for C6 at concrete inputs (no credential configured,
keyword `"lean"` matching): the first lean-group curated URL. -/
theorem pick_background_fallback_witness :
    (false = false ∨ ∀ q, (fun _ : String => (none : Option String)) q = none) ∧
    pick_background_url false (fun _ => none) ("Lean Basics")
      ("Six Sigma reduces variation through DMAIC.") none ≠ "" :=
  ⟨Or.inl rfl,
    (pick_background_fallback false (fun _ => none) ("Lean Basics")
      ("Six Sigma reduces variation through DMAIC.") none (Or.inl rfl)).2⟩

/-! ### C8: optional layers are independently fault-tolerant -/

/-- Is this layer the background layer? -/
def TimelineLayer.isBackground : TimelineLayer → Bool
  | .background _ _ => true
  | _ => false

/-- Is this layer the title card? -/
def TimelineLayer.isTitleCard : TimelineLayer → Bool
  | .titleCard _ _ => true
  | _ => false

/-- Is this layer the logo overlay? -/
def TimelineLayer.isLogoOv : TimelineLayer → Bool
  | .logoOverlay _ _ => true
  | _ => false

/-- Is this layer a caption chunk? -/
def TimelineLayer.isCaption : TimelineLayer → Bool
  | .caption _ => true
  | _ => false

/-- C8:  Plan construction is total (it always returns a
`RenderPlan`; no error escapes to the caller), and each optional layer
family in the result depends only on its own request flag and its own
collaborator outcome: a failure (`… Ok = false`) in the title card,
logo, caption, or music step only removes that step's layers, keeps the
background layer (and every other successful step's layers), and the
remaining steps still run. -/
theorem build_video_fault_tolerant (title narration : String) (target : ℕ) (a b : ℚ)
    (hasLogo ec atc bgm tOk lOk cOk mOk : Bool) :
    ((build_video title narration target a b hasLogo ec atc bgm
        tOk lOk cOk mOk).layers.filter (fun l => l.isBackground)) =
      [TimelineLayer.background (resolveOutDur a target b) (bgm && mOk)] ∧
    ((build_video title narration target a b hasLogo ec atc bgm
        tOk lOk cOk mOk).layers.filter (fun l => l.isTitleCard)) =
      (if atc && tOk then
        [TimelineLayer.titleCard 0 (min 3 (resolveOutDur a target b))] else []) ∧
    ((build_video title narration target a b hasLogo ec atc bgm
        tOk lOk cOk mOk).layers.filter (fun l => l.isLogoOv)) =
      (if hasLogo && lOk then
        [TimelineLayer.logoOverlay 0 (resolveOutDur a target b)] else []) ∧
    ((build_video title narration target a b hasLogo ec atc bgm
        tOk lOk cOk mOk).layers.filter (fun l => l.isCaption)) =
      (if ec && cOk then
        (segmentCaptions (trim_to_duration narration target)
          (resolveOutDur a target b)).map TimelineLayer.caption else []) := by
  cases hbm : (bgm && mOk) <;>
    · simp only [build_video, hbm, if_true, if_false, Bool.false_eq_true, ite_false,
        ite_true, List.singleton_append, List.cons_append, mixMusic]
      refine ⟨?_, ?_, ?_, ?_⟩ <;>
        · simp only [List.filter_cons, List.filter_append, apply_ite (List.filter _),
            List.filter_map]
          simp [TimelineLayer.isBackground, TimelineLayer.isTitleCard,
            TimelineLayer.isLogoOv, TimelineLayer.isCaption, Function.comp_def,
            List.filter_cons, List.filter_nil, List.filter_true]

/-- Witness for C10 at a concrete input where nothing survives
normalization. -/
theorem slugify_wellformed_witness :
    slugify ("!!!") = "ksm-video" ∧ slugify ("!!!") ≠ "" :=
  ⟨(slugify_wellformed ("!!!")).2.2.2.2.2 (by decide),
    (slugify_wellformed ("!!!")).1⟩

end KSM
